import Mathlib

/-!
Shallow embedding of elopic's data layer, `src/elopic/data/elopicdb.py`.

A TinyDB database is a list of documents in insertion order.  Each document
of elopic's table carries a `path` and a `rating`; the `seen_count` and
`ignore` keys may be absent in records written by old versions of the
program, which we model with `Option`.  Python exceptions are modelled
explicitly: an operation that can raise returns `Except` (or, for
`_validate_image`, the mutated database together with the escaping
exception, since the insert it performs persists even when it raises).
-/

/-- Modelled from the spec: the constant `INITIAL_ELO_SCORE` is imported
from `elopic.logic.elo`, a module not present in the sources at hand; the
spec fixes it as a constant initial rating whose concrete value no claim
depends on. -/
def INITIAL_ELO_SCORE : Int := 1000

/-- `ELOPIC_EXTENSIONS` from elopicdb.py. -/
def ELOPIC_EXTENSIONS : List String := [".jpg", ".jpeg"]

/-- One TinyDB document of elopic's table.  `seen_count` and `ignore` are
`none` when the corresponding dictionary key is missing (legacy records). -/
structure Record where
  path : String
  rating : Int
  seen_count : Option Nat
  ignore : Option Nat
deriving DecidableEq

/-- The database: TinyDB returns documents in document-id (insertion)
order. -/
abbrev DB := List Record

/-- The Python exceptions the data layer can raise. -/
inductive PyErr where
  | eloPicDBError (msg : String)
  | indexError
  | typeError
  | keyError
deriving DecidableEq

/-- `os.path.join(directory, name)` for the simple relative-name case used
by `validate`. -/
def pathJoin (dir img : String) : String := dir ++ "/" ++ img

/-- `self._db.search(Image.path == p)`: the documents whose `path` equals
`p`, in storage order. -/
def search (db : DB) (p : String) : List Record :=
  db.filter (fun r => r.path = p)

/-- The per-document effect of `self._db.update(fields, Image.path == p)`:
apply `f` to a document iff its `path` matches the query. -/
def updAt (p : String) (f : Record → Record) (r : Record) : Record :=
  if r.path = p then f r else r

/-- `self._db.update(fields, Image.path == p)`: apply `f` to every document
matching the query, leaving the others alone. -/
def updateWhere (db : DB) (p : String) (f : Record → Record) : DB :=
  db.map (updAt p f)

/-- The document inserted by `_validate_image` for an image not in the DB
yet. -/
def freshRecord (p : String) : Record :=
  { path := p, rating := INITIAL_ELO_SCORE, seen_count := some 0, ignore := some 0 }

/-- The two in-place migrations at the end of `_validate_image`: `r0` is
`result[0]`, the snapshot returned by the initial search; a missing
`seen_count` and a missing `ignore` are set to `0` on every document
matching the path. -/
def migrate_missing (db : DB) (p : String) (r0 : Record) : DB :=
  let db2 := if r0.seen_count = none
    then updateWhere db p (fun r => { r with seen_count := some 0 }) else db
  if r0.ignore = none
    then updateWhere db2 p (fun r => { r with ignore := some 0 }) else db2

/-- `EloPicDB._validate_image`.  Mirrors the source line by line: search;
insert when no match; raise `EloPicDBError` on more than one match;
otherwise subscript `result[0]` — which raises `IndexError` when the search
came back empty, i.e. exactly when the insert just happened — and run the
two migrations.  Returns the resulting database and the escaping
exception, if any. -/
def _validate_image (db : DB) (image_path : String) : DB × Option PyErr :=
  let result := search db image_path
  let db1 := if result.length = 0 then db ++ [freshRecord image_path] else db
  if result.length > 1 then
    (db1, some (PyErr.eloPicDBError image_path))
  else
    match result with
    | [] => (db1, some PyErr.indexError)
    | r0 :: _ => (migrate_missing db1 image_path r0, none)

/-- Python's `str.lower()`, as the lowercased character list. -/
def pyLower (s : String) : List Char := s.data.map Char.toLower

/-- The extension filter of `validate`:
`any(img.lower().endswith(ext) for ext in ELOPIC_EXTENSIONS)`; Python's
`endswith` is the suffix test on the character sequences. -/
def qualifies (img : String) : Bool :=
  ELOPIC_EXTENSIONS.any (fun ext => ext.data.isSuffixOf (pyLower img))

/-- One iteration of the loop in `EloPicDB.validate`: skip files without a
recognized extension; otherwise run `_validate_image` on the joined path
with the exception caught, its `message` attribute rewritten, and — the
original's silent-swallow pattern — never re-raised or recorded. -/
def validateStep (dir : String) (db : DB) (img : String) : DB :=
  if qualifies img then (_validate_image db (pathJoin dir img)).1 else db

/-- `EloPicDB.validate`: the loop body folded over `listdir(self._dir)`. -/
def validate (files : List String) (dir : String) (db : DB) : DB :=
  files.foldl (validateStep dir) db

/-- `EloPicDB.load_from_disk` after a successful `TinyDB` open: `db` is the
content read from `elopic.data` (empty when the file did not exist); the
call to `validate` is wrapped in a handler that only rewrites the message of
an escaping exception, and `validate` itself never raises. -/
def load_from_disk (files : List String) (dir : String) (db : DB) : DB :=
  validate files dir db

/-- `EloPicDB.get_rating`: `self._db.get(...)` returns the first matching
document or `None`; subscripting `None` with `['rating']` raises
`TypeError`. -/
def get_rating (db : DB) (image_path : String) : Except PyErr Int :=
  match db.find? (fun r => r.path = image_path) with
  | none => Except.error PyErr.typeError
  | some r => Except.ok r.rating

/-- `EloPicDB.update_rating`: set `rating` on every matching document, then
apply `increment('seen_count')` to every matching document; incrementing a
document without the `seen_count` key raises `KeyError` (in that case only
the error is reported, no claim inspects the post-error state). -/
def update_rating (db : DB) (image_path : String) (rating : Int) :
    Except PyErr DB :=
  let db1 := updateWhere db image_path (fun r => { r with rating := rating })
  if (search db1 image_path).all (fun r => r.seen_count.isSome) then
    Except.ok (updateWhere db1 image_path
      (fun r => { r with seen_count := r.seen_count.map (· + 1) }))
  else
    Except.error PyErr.keyError

/-- One row of `EloPicDB.to_list`:
`[entry['path'], entry['seen_count'], entry['rating'], entry['ignore']]`;
reading a missing key raises `KeyError`. -/
def entryRow (r : Record) : Except PyErr (String × Nat × Int × Nat) :=
  match r.seen_count, r.ignore with
  | some s, some i => Except.ok (r.path, s, r.rating, i)
  | _, _ => Except.error PyErr.keyError

/-- `EloPicDB.to_list`: one row per document of `self._db.all()`, produced
left to right; the first missing key aborts the comprehension with its
`KeyError`. -/
def to_list : DB → Except PyErr (List (String × Nat × Int × Nat))
  | [] => Except.ok []
  | r :: l =>
    match entryRow r, to_list l with
    | Except.ok row, Except.ok rows => Except.ok (row :: rows)
    | Except.error e, _ => Except.error e
    | _, Except.error e => Except.error e

/-- `EloPicDB.get_all`: `search(Image.ignore == 0)`; a document without the
`ignore` key does not satisfy the query. -/
def get_all (db : DB) : List Record :=
  db.filter (fun r => r.ignore = some 0)

/-- The sort order of `sorted(all, key=itemgetter('rating'), reverse=True)`:
Python's `sorted` is stable, and with `reverse=True` it stably orders `a`
before `b` whenever `a`'s rating is at least `b`'s. -/
abbrev ratingGE (a b : Record) : Prop := b.rating ≤ a.rating

/-- `EloPicDB.get_top_x_filepaths_by_rating`: stable descending sort of the
active records by rating, truncate to `x`, project to paths.
`List.insertionSort` is a stable sort, hence implements Python's
`sorted(..., reverse=True)` with the relation `ratingGE`. -/
def get_top_x_filepaths_by_rating (db : DB) (x : Nat) : List String :=
  ((List.insertionSort ratingGE (get_all db)).take x).map (fun r => r.path)

/-- `EloPicDB.ignore_pictures`: one `update({'ignore': 1}, path == p)` per
requested path. -/
def ignore_pictures (db : DB) (images_to_ignore : List String) : DB :=
  images_to_ignore.foldl
    (fun d p => updateWhere d p (fun r => { r with ignore := some 1 })) db

/-- At most one record per distinct path: the store's paths are pairwise
distinct. -/
def UniquePaths (db : DB) : Prop :=
  db.Pairwise (fun a b => a.path ≠ b.path)

/-- A path is settled when running `_validate_image` on it cannot change the
database: either the duplicate error fires, or exactly one fully migrated
record exists. -/
def SettledAt (db : DB) (p : String) : Prop :=
  2 ≤ (search db p).length ∨
    ∃ r, search db p = [r] ∧ r.seen_count ≠ none ∧ r.ignore ≠ none

instance : IsTotal Record ratingGE :=
  ⟨fun a b => le_total b.rating a.rating⟩

instance : IsTrans Record ratingGE :=
  ⟨fun _ _ _ hab hbc => le_trans hbc hab⟩

/-- A sequence of recorded comparisons touching the image at `p`: the
successive new ratings are written with `update_rating`, one call per
comparison. -/
def apply_ratings (p : String) : DB → List Int → Except PyErr DB
  | db, [] => Except.ok db
  | db, v :: vs =>
    match update_rating db p v with
    | Except.ok db1 => apply_ratings p db1 vs
    | Except.error e => Except.error e

/-- A legacy record: no `seen_count` and no `ignore` key. -/
def legacyRecord : Record :=
  { path := "/d/a.jpg", rating := 7, seen_count := none, ignore := none }

/-- A corrupt store: two records for the same path. -/
def dupDb : DB :=
  [{ path := "/d/a.jpg", rating := 1200, seen_count := some 3, ignore := some 0 },
   { path := "/d/a.jpg", rating := 1100, seen_count := some 1, ignore := some 0 }]

/-! ### Basic lemmas about `search`, `updateWhere` and `_validate_image` -/

theorem search_cons (r : Record) (l : DB) (p : String) :
    search (r :: l) p = if r.path = p then r :: search l p else search l p := by
  simp only [search, List.filter_cons]
  by_cases h : r.path = p <;> simp [h]

theorem search_append (db1 db2 : DB) (p : String) :
    search (db1 ++ db2) p = search db1 p ++ search db2 p := by
  simp [search, List.filter_append]

theorem search_eq_nil_iff {db : DB} {p : String} :
    search db p = [] ↔ ∀ r ∈ db, r.path ≠ p := by
  simp [search, List.filter_eq_nil_iff]

theorem mem_search {db : DB} {p : String} {r : Record} (h : r ∈ search db p) :
    r ∈ db ∧ r.path = p := by
  have := List.mem_filter.mp h
  simpa using this

theorem search_singleton_path {db : DB} {p : String} {r : Record}
    (h : search db p = [r]) : r.path = p :=
  (mem_search (h ▸ List.mem_singleton.mpr rfl)).2

theorem search_map {g : Record → Record} (hg : ∀ r, (g r).path = r.path)
    (db : DB) (q : String) : search (db.map g) q = (search db q).map g := by
  induction db with
  | nil => rfl
  | cons r l ih =>
    rw [List.map_cons, search_cons, search_cons, hg r]
    by_cases h : r.path = q <;> simp [h, ih]

theorem updAt_path {f : Record → Record} (hf : ∀ r, (f r).path = r.path)
    (p : String) (r : Record) : (updAt p f r).path = r.path := by
  unfold updAt; split <;> simp [hf]

theorem search_updateWhere {f : Record → Record}
    (hf : ∀ r, (f r).path = r.path) (db : DB) (p q : String) :
    search (updateWhere db p f) q = (search db q).map (updAt p f) :=
  search_map (updAt_path hf p) db q

theorem search_updateWhere_other {f : Record → Record}
    (hf : ∀ r, (f r).path = r.path) {db : DB} {p q : String} (hne : q ≠ p) :
    search (updateWhere db q f) p = search db p := by
  rw [search_updateWhere hf]
  have hid : ∀ r ∈ search db p, updAt q f r = r := by
    intro r hr
    unfold updAt
    rw [if_neg]
    intro hrq
    exact hne ((mem_search hr).2 ▸ hrq ▸ rfl)
  calc (search db p).map (updAt q f) = (search db p).map id :=
        List.map_congr_left hid
  _ = search db p := List.map_id _

theorem map_proj_updateWhere {β : Type} {F : Record → β} {f : Record → Record}
    (hF : ∀ r, F (f r) = F r) (db : DB) (p : String) :
    (updateWhere db p f).map F = db.map F := by
  unfold updateWhere
  rw [List.map_map]
  apply List.map_congr_left
  intro r _
  simp only [Function.comp_apply, updAt]
  split <;> simp [hF]

theorem updateWhere_no_match {db : DB} {p : String} {f : Record → Record}
    (h : ∀ r ∈ db, r.path ≠ p) : updateWhere db p f = db := by
  unfold updateWhere
  calc db.map (updAt p f) = db.map id := by
        apply List.map_congr_left
        intro r hr
        unfold updAt
        rw [if_neg (h r hr)]
        rfl
  _ = db := List.map_id _

theorem updateWhere_length (db : DB) (p : String) (f : Record → Record) :
    (updateWhere db p f).length = db.length :=
  List.length_map _ _

theorem vi_absent {db : DB} {p : String} (h : search db p = []) :
    _validate_image db p = (db ++ [freshRecord p], some PyErr.indexError) := by
  simp [_validate_image, h]

theorem vi_single {db : DB} {p : String} {r0 : Record} (h : search db p = [r0]) :
    _validate_image db p = (migrate_missing db p r0, none) := by
  simp [_validate_image, h]

theorem vi_dup {db : DB} {p : String} (h : 2 ≤ (search db p).length) :
    _validate_image db p = (db, some (PyErr.eloPicDBError p)) := by
  rcases hs : search db p with _ | ⟨r1, rest⟩
  · rw [hs] at h; simp at h
  · have h1 : (r1 :: rest).length > 1 := by rw [← hs]; omega
    have h2 : ¬ rest = [] := by intro he; subst he; simp at h1
    simp [_validate_image, hs, h1, h2]

theorem freshRecord_path (p : String) : (freshRecord p).path = p := rfl

theorem search_updateWhere_single {f : Record → Record}
    (hf : ∀ r, (f r).path = r.path) {db : DB} {p : String} {r : Record}
    (h : search db p = [r]) :
    search (updateWhere db p f) p = [f r] := by
  rw [search_updateWhere hf, h]
  have hr : updAt p f r = f r := by
    unfold updAt
    rw [if_pos (search_singleton_path h)]
  simp [hr]

theorem migrate_missing_eq (db : DB) (p : String) (r0 : Record) :
    migrate_missing db p r0 =
      if r0.seen_count = none then
        (if r0.ignore = none then
          updateWhere (updateWhere db p (fun t => { t with seen_count := some 0 })) p
            (fun t => { t with ignore := some 0 })
         else updateWhere db p (fun t => { t with seen_count := some 0 }))
      else
        (if r0.ignore = none then
          updateWhere db p (fun t => { t with ignore := some 0 })
         else db) := by
  unfold migrate_missing
  by_cases h1 : r0.seen_count = none <;> by_cases h2 : r0.ignore = none <;>
    simp [h1, h2]

theorem search_setSeen_single {db : DB} {p : String} {r : Record}
    (h : search db p = [r]) :
    search (updateWhere db p (fun t => { t with seen_count := some 0 })) p
      = [{ r with seen_count := some 0 }] :=
  search_updateWhere_single
    (f := fun t => { t with seen_count := some 0 }) (fun _ => rfl) h

theorem search_setIgn_single {db : DB} {p : String} {r : Record}
    (h : search db p = [r]) :
    search (updateWhere db p (fun t => { t with ignore := some 0 })) p
      = [{ r with ignore := some 0 }] :=
  search_updateWhere_single
    (f := fun t => { t with ignore := some 0 }) (fun _ => rfl) h

theorem search_setSeen_other {db : DB} {p q : String} (hne : q ≠ p) :
    search (updateWhere db q (fun t => { t with seen_count := some 0 })) p
      = search db p :=
  search_updateWhere_other
    (f := fun t => { t with seen_count := some 0 }) (fun _ => rfl) hne

theorem search_setIgn_other {db : DB} {p q : String} (hne : q ≠ p) :
    search (updateWhere db q (fun t => { t with ignore := some 0 })) p
      = search db p :=
  search_updateWhere_other
    (f := fun t => { t with ignore := some 0 }) (fun _ => rfl) hne

theorem search_migrate_missing {db : DB} {p : String} {r : Record}
    (h : search db p = [r]) :
    search (migrate_missing db p r) p
      = [{ r with seen_count := some (r.seen_count.getD 0),
                  ignore := some (r.ignore.getD 0) }] := by
  rw [migrate_missing_eq]
  by_cases h1 : r.seen_count = none
  · by_cases h2 : r.ignore = none
    · rw [if_pos h1, if_pos h2, search_setIgn_single (search_setSeen_single h)]
      simp [h1, h2]
    · obtain ⟨b, hb⟩ := Option.ne_none_iff_exists'.mp h2
      rw [if_pos h1, if_neg h2, search_setSeen_single h]
      simp [h1, hb]
  · obtain ⟨a, ha⟩ := Option.ne_none_iff_exists'.mp h1
    by_cases h2 : r.ignore = none
    · rw [if_neg h1, if_pos h2, search_setIgn_single h]
      simp [ha, h2]
    · obtain ⟨b, hb⟩ := Option.ne_none_iff_exists'.mp h2
      rw [if_neg h1, if_neg h2, h]
      simp [ha, hb]
      rw [← ha, ← hb]

theorem migrate_missing_search_other {db : DB} {p q : String} {r0 : Record}
    (hne : q ≠ p) :
    search (migrate_missing db q r0) p = search db p := by
  rw [migrate_missing_eq]
  by_cases h1 : r0.seen_count = none
  · by_cases h2 : r0.ignore = none
    · rw [if_pos h1, if_pos h2, search_setIgn_other hne, search_setSeen_other hne]
    · rw [if_pos h1, if_neg h2, search_setSeen_other hne]
  · by_cases h2 : r0.ignore = none
    · rw [if_neg h1, if_pos h2, search_setIgn_other hne]
    · rw [if_neg h1, if_neg h2]

theorem map_path_setSeen (db : DB) (p : String) :
    (updateWhere db p (fun t => { t with seen_count := some 0 })).map
        (fun s => s.path)
      = db.map (fun s => s.path) :=
  map_proj_updateWhere (F := fun s => s.path)
    (f := fun t => { t with seen_count := some 0 }) (fun _ => rfl) db p

theorem map_path_setIgn (db : DB) (p : String) :
    (updateWhere db p (fun t => { t with ignore := some 0 })).map
        (fun s => s.path)
      = db.map (fun s => s.path) :=
  map_proj_updateWhere (F := fun s => s.path)
    (f := fun t => { t with ignore := some 0 }) (fun _ => rfl) db p

theorem map_rating_setSeen (db : DB) (p : String) :
    (updateWhere db p (fun t => { t with seen_count := some 0 })).map
        (fun s => s.rating)
      = db.map (fun s => s.rating) :=
  map_proj_updateWhere (F := fun s => s.rating)
    (f := fun t => { t with seen_count := some 0 }) (fun _ => rfl) db p

theorem map_rating_setIgn (db : DB) (p : String) :
    (updateWhere db p (fun t => { t with ignore := some 0 })).map
        (fun s => s.rating)
      = db.map (fun s => s.rating) :=
  map_proj_updateWhere (F := fun s => s.rating)
    (f := fun t => { t with ignore := some 0 }) (fun _ => rfl) db p

theorem migrate_missing_map_path (db : DB) (p : String) (r0 : Record) :
    (migrate_missing db p r0).map (fun s => s.path)
      = db.map (fun s => s.path) := by
  rw [migrate_missing_eq]
  by_cases h1 : r0.seen_count = none <;> by_cases h2 : r0.ignore = none <;>
    simp [h1, h2, map_path_setSeen, map_path_setIgn]

theorem migrate_missing_map_rating (db : DB) (p : String) (r0 : Record) :
    (migrate_missing db p r0).map (fun s => s.rating)
      = db.map (fun s => s.rating) := by
  rw [migrate_missing_eq]
  by_cases h1 : r0.seen_count = none <;> by_cases h2 : r0.ignore = none <;>
    simp [h1, h2, map_rating_setSeen, map_rating_setIgn]

/-! ### Settled paths: a second `_validate_image` on them is a no-op -/

theorem settledAt_congr {db db' : DB} {p : String}
    (h : search db' p = search db p) (hs : SettledAt db p) : SettledAt db' p := by
  unfold SettledAt at *
  rw [h]
  exact hs

theorem settled_no_change {db : DB} {p : String} (h : SettledAt db p) :
    (_validate_image db p).1 = db := by
  rcases h with h | ⟨r, hr, hs, hi⟩
  · rw [vi_dup h]
  · rw [vi_single hr]
    simp [migrate_missing, hs, hi]

theorem step_settles (db : DB) (p : String) :
    SettledAt ((_validate_image db p).1) p := by
  rcases hs : search db p with _ | ⟨r, _ | ⟨r2, rest⟩⟩
  · rw [vi_absent hs]
    right
    refine ⟨freshRecord p, ?_, by simp [freshRecord], by simp [freshRecord]⟩
    rw [search_append, hs, List.nil_append]
    simp [search_cons, freshRecord_path, search]
  · rw [vi_single hs]
    right
    exact ⟨_, search_migrate_missing hs, by simp, by simp⟩
  · rw [vi_dup (by rw [hs]; exact Nat.le_add_left 2 rest.length)]
    left
    rw [hs]
    exact Nat.le_add_left 2 rest.length

theorem vi_other_search {db : DB} {p q : String} (hne : q ≠ p) :
    search ((_validate_image db q).1) p = search db p := by
  rcases hs : search db q with _ | ⟨r, _ | ⟨r2, rest⟩⟩
  · rw [vi_absent hs, search_append]
    have hsingle : search [freshRecord q] p = [] := by
      simp [search_cons, freshRecord, search, hne]
    rw [hsingle, List.append_nil]
  · rw [vi_single hs]
    exact migrate_missing_search_other hne
  · rw [vi_dup (by rw [hs]; exact Nat.le_add_left 2 rest.length)]

theorem validate_cons (f : String) (fs : List String) (dir : String) (db : DB) :
    validate (f :: fs) dir db = validate fs dir (validateStep dir db f) := rfl

theorem validateStep_search_of {dir img : String} {db : DB} {p : String}
    (h : SettledAt db p ∨ pathJoin dir img ≠ p) :
    search (validateStep dir db img) p = search db p := by
  unfold validateStep
  by_cases hq : qualifies img = true
  · rw [if_pos hq]
    by_cases hp : pathJoin dir img = p
    · rcases h with h | h
      · rw [hp, settled_no_change h]
      · exact absurd hp h
    · exact vi_other_search hp
  · rw [if_neg hq]

theorem validate_search_of_settled {files : List String} {dir : String}
    {db : DB} {p : String} (h : SettledAt db p) :
    search (validate files dir db) p = search db p := by
  induction files generalizing db with
  | nil => rfl
  | cons f fs ih =>
    rw [validate_cons]
    have hstep : search (validateStep dir db f) p = search db p :=
      validateStep_search_of (Or.inl h)
    rw [ih (settledAt_congr hstep h), hstep]

theorem validate_settles {files : List String} {dir img : String} {db : DB}
    (h1 : img ∈ files) (h2 : qualifies img = true) :
    SettledAt (validate files dir db) (pathJoin dir img) := by
  induction files generalizing db with
  | nil => cases h1
  | cons f fs ih =>
    rw [validate_cons]
    rcases List.mem_cons.mp h1 with heq | hmem
    · subst heq
      have hset : SettledAt (validateStep dir db img) (pathJoin dir img) := by
        unfold validateStep
        rw [if_pos h2]
        exact step_settles db (pathJoin dir img)
      exact settledAt_congr (validate_search_of_settled hset) hset
    · exact ih hmem

theorem validate_of_settled {files : List String} {dir : String} {db : DB}
    (h : ∀ img ∈ files, qualifies img = true → SettledAt db (pathJoin dir img)) :
    validate files dir db = db := by
  induction files with
  | nil => rfl
  | cons f fs ih =>
    rw [validate_cons]
    have hstep : validateStep dir db f = db := by
      unfold validateStep
      by_cases hq : qualifies f = true
      · rw [if_pos hq]
        exact settled_no_change (h f (List.mem_cons_self f fs) hq)
      · rw [if_neg hq]
    rw [hstep]
    exact ih (fun img hm hq => h img (List.mem_cons_of_mem f hm) hq)

/-- The first time `validate` reaches a qualifying file whose joined path is
`p`, the records at `p` become `s1` and the path becomes settled; afterwards
they never change again. -/
theorem validate_touch {s0 s1 : List Record} {files : List String}
    {dir img : String} {db : DB} {p : String}
    (h1 : img ∈ files) (h2 : qualifies img = true) (h3 : pathJoin dir img = p)
    (hpre : search db p = s0)
    (htouch : ∀ d : DB, search d p = s0 →
      search ((_validate_image d p).1) p = s1 ∧
        SettledAt ((_validate_image d p).1) p) :
    search (validate files dir db) p = s1 := by
  induction files generalizing db with
  | nil => cases h1
  | cons f fs ih =>
    rw [validate_cons]
    by_cases hq : qualifies f = true
    · by_cases hp : pathJoin dir f = p
      · have hstep : validateStep dir db f = (_validate_image db p).1 := by
          unfold validateStep
          rw [if_pos hq, hp]
        obtain ⟨ha, hb⟩ := htouch db hpre
        rw [hstep, validate_search_of_settled hb, ha]
      · have hmem : img ∈ fs := by
          rcases List.mem_cons.mp h1 with heq | hm
          · exact absurd (heq ▸ h3) hp
          · exact hm
        exact ih hmem ((validateStep_search_of (Or.inr hp)).trans hpre)
    · have hmem : img ∈ fs := by
        rcases List.mem_cons.mp h1 with heq | hm
        · exact absurd (heq ▸ h2) hq
        · exact hm
      have hstep : validateStep dir db f = db := by
        unfold validateStep
        rw [if_neg hq]
      rw [hstep]
      exact ih hmem hpre

theorem search_append_fresh {d : DB} {p : String} (hd : search d p = []) :
    search (d ++ [freshRecord p]) p = [freshRecord p] := by
  rw [search_append, hd, List.nil_append]
  simp [search_cons, freshRecord_path, search]

/-! ### Uniqueness of paths is preserved by every operation -/

theorem uniquePaths_map {g : Record → Record} (hg : ∀ r, (g r).path = r.path)
    {db : DB} (h : UniquePaths db) : UniquePaths (db.map g) := by
  unfold UniquePaths at *
  exact List.Pairwise.map g (fun a b hab => by rw [hg a, hg b]; exact hab) h

theorem uniquePaths_updateWhere {f : Record → Record}
    (hf : ∀ r, (f r).path = r.path) {db : DB} {p : String}
    (h : UniquePaths db) : UniquePaths (updateWhere db p f) :=
  uniquePaths_map (updAt_path hf p) h

theorem uniquePaths_setSeen {db : DB} {p : String} (h : UniquePaths db) :
    UniquePaths (updateWhere db p (fun t => { t with seen_count := some 0 })) :=
  uniquePaths_updateWhere
    (f := fun t => { t with seen_count := some 0 }) (fun _ => rfl) h

theorem uniquePaths_setIgn0 {db : DB} {p : String} (h : UniquePaths db) :
    UniquePaths (updateWhere db p (fun t => { t with ignore := some 0 })) :=
  uniquePaths_updateWhere
    (f := fun t => { t with ignore := some 0 }) (fun _ => rfl) h

theorem uniquePaths_setIgn1 {db : DB} {p : String} (h : UniquePaths db) :
    UniquePaths (updateWhere db p (fun t => { t with ignore := some 1 })) :=
  uniquePaths_updateWhere
    (f := fun t => { t with ignore := some 1 }) (fun _ => rfl) h

theorem uniquePaths_setRating {db : DB} {p : String} {v : Int}
    (h : UniquePaths db) :
    UniquePaths (updateWhere db p (fun t => { t with rating := v })) :=
  uniquePaths_updateWhere
    (f := fun t => { t with rating := v }) (fun _ => rfl) h

theorem uniquePaths_incSeen {db : DB} {p : String} (h : UniquePaths db) :
    UniquePaths (updateWhere db p
      (fun t => { t with seen_count := t.seen_count.map (· + 1) })) :=
  uniquePaths_updateWhere
    (f := fun t => { t with seen_count := t.seen_count.map (· + 1) })
    (fun _ => rfl) h

theorem uniquePaths_migrate_missing {db : DB} {p : String} {r0 : Record}
    (h : UniquePaths db) : UniquePaths (migrate_missing db p r0) := by
  rw [migrate_missing_eq]
  by_cases h1 : r0.seen_count = none
  · by_cases h2 : r0.ignore = none
    · rw [if_pos h1, if_pos h2]
      exact uniquePaths_setIgn0 (uniquePaths_setSeen h)
    · rw [if_pos h1, if_neg h2]
      exact uniquePaths_setSeen h
  · by_cases h2 : r0.ignore = none
    · rw [if_neg h1, if_pos h2]
      exact uniquePaths_setIgn0 h
    · rw [if_neg h1, if_neg h2]
      exact h

theorem migrate_missing_length (db : DB) (p : String) (r0 : Record) :
    (migrate_missing db p r0).length = db.length := by
  rw [migrate_missing_eq]
  by_cases h1 : r0.seen_count = none <;> by_cases h2 : r0.ignore = none <;>
    simp [h1, h2, updateWhere_length]

theorem uniquePaths_vi {db : DB} {p : String} (h : UniquePaths db) :
    UniquePaths ((_validate_image db p).1) := by
  rcases hs : search db p with _ | ⟨r, _ | ⟨r2, rest⟩⟩
  · rw [vi_absent hs]
    unfold UniquePaths
    rw [List.pairwise_append]
    refine ⟨h, by simp, ?_⟩
    intro a ha b hb
    have hb2 : b = freshRecord p := by simpa using hb
    subst hb2
    rw [freshRecord_path]
    exact search_eq_nil_iff.mp hs a ha
  · rw [vi_single hs]
    exact uniquePaths_migrate_missing h
  · rw [vi_dup (by rw [hs]; exact Nat.le_add_left 2 rest.length)]
    exact h

theorem uniquePaths_validate {files : List String} {dir : String} {db : DB}
    (h : UniquePaths db) : UniquePaths (validate files dir db) := by
  induction files generalizing db with
  | nil => exact h
  | cons f fs ih =>
    rw [validate_cons]
    apply ih
    unfold validateStep
    by_cases hq : qualifies f = true
    · rw [if_pos hq]
      exact uniquePaths_vi h
    · rw [if_neg hq]
      exact h

theorem uniquePaths_ignore {db : DB} {ps : List String} (h : UniquePaths db) :
    UniquePaths (ignore_pictures db ps) := by
  induction ps generalizing db with
  | nil => exact h
  | cons q qs ih => exact ih (uniquePaths_setIgn1 h)

/-- C1.  For every directory load, `load_from_disk` preserves the
at-most-one-record-per-path invariant; so do `ignore_pictures` and
`update_rating`; and `_validate_image` inserts nothing when a record with
the path already exists (the store's size is unchanged). -/
theorem at_most_one_record_per_path (files : List String) (dir : String)
    (db : DB) (ps : List String) (p q : String) (v : Int)
    (hu : UniquePaths db) :
    UniquePaths (load_from_disk files dir db) ∧
    UniquePaths (ignore_pictures db ps) ∧
    (∀ db2, update_rating db p v = Except.ok db2 → UniquePaths db2) ∧
    (search db q ≠ [] → ((_validate_image db q).1).length = db.length) := by
  refine ⟨uniquePaths_validate hu, uniquePaths_ignore hu, ?_, ?_⟩
  · intro db2 hok
    simp only [update_rating] at hok
    split at hok
    · cases hok
      exact uniquePaths_incSeen (uniquePaths_setRating hu)
    · cases hok
  · intro hne
    rcases hs : search db q with _ | ⟨r, _ | ⟨r2, rest⟩⟩
    · exact absurd hs hne
    · rw [vi_single hs]
      exact migrate_missing_length db q r
    · rw [vi_dup (by rw [hs]; exact Nat.le_add_left 2 rest.length)]

theorem at_most_one_record_per_path_witness :
    UniquePaths (load_from_disk ["a.jpg"] "/d" [freshRecord "/d/b.jpg"]) ∧
    UniquePaths (ignore_pictures [freshRecord "/d/b.jpg"] ["/d/b.jpg"]) ∧
    (∀ db2, update_rating [freshRecord "/d/b.jpg"] "/d/b.jpg" 5
        = Except.ok db2 → UniquePaths db2) ∧
    (search [freshRecord "/d/b.jpg"] "/d/b.jpg" ≠ [] →
      ((_validate_image [freshRecord "/d/b.jpg"] "/d/b.jpg").1).length
        = [freshRecord "/d/b.jpg"].length) :=
  at_most_one_record_per_path ["a.jpg"] "/d" [freshRecord "/d/b.jpg"]
    ["/d/b.jpg"] "/d/b.jpg" "/d/b.jpg" 5 (by simp [UniquePaths])

/-- C6.  Reconciliation is idempotent: loading the same directory twice in a
row, with the same file listing and no changes in between, leaves the record
set of the second load identical to that of the first. -/
theorem load_from_disk_idempotent (files : List String) (dir : String)
    (db : DB) :
    load_from_disk files dir (load_from_disk files dir db)
      = load_from_disk files dir db := by
  unfold load_from_disk
  exact validate_of_settled (fun img hm hq => validate_settles hm hq)

/-- C8.  A qualifying image file whose joined path has no record yet gets
exactly one new record, initialized with `INITIAL_ELO_SCORE`, a zero
`seen_count` and a cleared `ignore` flag. -/
theorem reconciliation_initializes_new_records (files : List String)
    (dir img : String) (db : DB)
    (h1 : img ∈ files) (h2 : qualifies img = true)
    (h3 : search db (pathJoin dir img) = []) :
    search (validate files dir db) (pathJoin dir img)
        = [freshRecord (pathJoin dir img)] ∧
    (freshRecord (pathJoin dir img)).rating = INITIAL_ELO_SCORE ∧
    (freshRecord (pathJoin dir img)).seen_count = some 0 ∧
    (freshRecord (pathJoin dir img)).ignore = some 0 := by
  refine ⟨?_, rfl, rfl, rfl⟩
  refine validate_touch h1 h2 rfl h3 ?_
  intro d hd
  constructor
  · rw [vi_absent hd]
    exact search_append_fresh hd
  · exact step_settles d (pathJoin dir img)

theorem reconciliation_initializes_new_records_witness :
    search (validate ["a.jpg"] "/d" []) (pathJoin "/d" "a.jpg")
        = [freshRecord (pathJoin "/d" "a.jpg")] ∧
    (freshRecord (pathJoin "/d" "a.jpg")).rating = INITIAL_ELO_SCORE ∧
    (freshRecord (pathJoin "/d" "a.jpg")).seen_count = some 0 ∧
    (freshRecord (pathJoin "/d" "a.jpg")).ignore = some 0 :=
  reconciliation_initializes_new_records ["a.jpg"] "/d" "a.jpg" []
    (by decide) (by decide) rfl

/-- C5.  Migration safety: for a store holding exactly one record at a
scanned path, reconciliation reports no error, changes no record's `path`
or `rating`, and afterwards the record at that path carries its old values
with a missing `seen_count` defaulted to `0` and a missing `ignore`
defaulted to `0` (false). -/
theorem migration_safety (files : List String) (dir img : String) (db : DB)
    (p : String) (r : Record)
    (h1 : img ∈ files) (h2 : qualifies img = true) (h3 : pathJoin dir img = p)
    (h : search db p = [r]) :
    (_validate_image db p).2 = none ∧
    ((_validate_image db p).1).map (fun s => s.path)
        = db.map (fun s => s.path) ∧
    ((_validate_image db p).1).map (fun s => s.rating)
        = db.map (fun s => s.rating) ∧
    search (validate files dir db) p
      = [{ r with seen_count := some (r.seen_count.getD 0),
                  ignore := some (r.ignore.getD 0) }] := by
  refine ⟨by rw [vi_single h], ?_, ?_, ?_⟩
  · rw [vi_single h]
    exact migrate_missing_map_path db p r
  · rw [vi_single h]
    exact migrate_missing_map_rating db p r
  · refine validate_touch h1 h2 h3 h ?_
    intro d hd
    refine ⟨?_, step_settles d p⟩
    rw [vi_single hd]
    exact search_migrate_missing hd

theorem migration_safety_witness :
    (_validate_image [legacyRecord] "/d/a.jpg").2 = none ∧
    ((_validate_image [legacyRecord] "/d/a.jpg").1).map (fun s => s.path)
        = [legacyRecord].map (fun s => s.path) ∧
    ((_validate_image [legacyRecord] "/d/a.jpg").1).map (fun s => s.rating)
        = [legacyRecord].map (fun s => s.rating) ∧
    search (validate ["a.jpg"] "/d" [legacyRecord]) "/d/a.jpg"
      = [{ legacyRecord with
            seen_count := some (legacyRecord.seen_count.getD 0),
            ignore := some (legacyRecord.ignore.getD 0) }] :=
  migration_safety ["a.jpg"] "/d" "a.jpg" [legacyRecord] "/d/a.jpg"
    legacyRecord (by decide) (by decide) rfl rfl

/-! ### Top-K by rating -/

theorem orderedInsert_filter_rating (x : Record) (l : List Record) (c : Int) :
    (List.orderedInsert ratingGE x l).filter (fun r => r.rating = c)
      = (x :: l).filter (fun r => r.rating = c) := by
  induction l with
  | nil => rfl
  | cons y l ih =>
    by_cases hxy : ratingGE x y
    · simp only [List.orderedInsert]
      rw [if_pos hxy]
    · simp only [List.orderedInsert]
      rw [if_neg hxy]
      have hlt : x.rating < y.rating := lt_of_not_le hxy
      by_cases hx : x.rating = c
      · have hy : ¬ y.rating = c := by
          intro hy
          rw [hx, hy] at hlt
          exact lt_irrefl c hlt
        simp [List.filter_cons, hx, hy, ih]
      · by_cases hy : y.rating = c <;> simp [List.filter_cons, hx, hy, ih]

theorem insertionSort_filter_rating (l : List Record) (c : Int) :
    (List.insertionSort ratingGE l).filter (fun r => r.rating = c)
      = l.filter (fun r => r.rating = c) := by
  induction l with
  | nil => rfl
  | cons a l ih =>
    simp only [List.insertionSort]
    rw [orderedInsert_filter_rating]
    by_cases ha : a.rating = c <;> simp [List.filter_cons, ha, ih]

/-- C2.  `get_top_x_filepaths_by_rating` projects the paths of the first
`x` elements of a list that is a permutation of the active records, is
sorted by rating descending, and is stable (the records at each fixed
rating keep their original relative order); when `x` is at least the
number of active records every active record's path is returned. -/
theorem top_x_filepaths_correct (db : DB) (x : Nat) :
    get_top_x_filepaths_by_rating db x
      = ((List.insertionSort ratingGE (get_all db)).take x).map
          (fun r => r.path) ∧
    (List.insertionSort ratingGE (get_all db)).Perm (get_all db) ∧
    (List.insertionSort ratingGE (get_all db)).Sorted ratingGE ∧
    (∀ c : Int,
      (List.insertionSort ratingGE (get_all db)).filter (fun r => r.rating = c)
        = (get_all db).filter (fun r => r.rating = c)) ∧
    (∀ m : Nat, get_top_x_filepaths_by_rating db ((get_all db).length + m)
        = (List.insertionSort ratingGE (get_all db)).map (fun r => r.path)) := by
  refine ⟨rfl, List.perm_insertionSort _ _, List.sorted_insertionSort _ _,
    fun c => insertionSort_filter_rating _ c, fun m => ?_⟩
  unfold get_top_x_filepaths_by_rating
  have hle : (List.insertionSort ratingGE (get_all db)).length
      ≤ (get_all db).length + m := by
    rw [(List.perm_insertionSort ratingGE (get_all db)).length_eq]
    exact Nat.le_add_right _ _
  rw [List.take_of_length_le hle]

/-! ### Rating updates and seen counts -/

theorem update_rating_single {db : DB} {p : String} {r : Record} {n : Nat}
    (h : search db p = [r]) (hn : r.seen_count = some n) (v : Int) :
    update_rating db p v
        = Except.ok (updateWhere
            (updateWhere db p (fun t => { t with rating := v })) p
            (fun t => { t with seen_count := t.seen_count.map (· + 1) })) ∧
    search (updateWhere
            (updateWhere db p (fun t => { t with rating := v })) p
            (fun t => { t with seen_count := t.seen_count.map (· + 1) })) p
      = [{ r with rating := v, seen_count := some (n + 1) }] := by
  have hs1 : search (updateWhere db p (fun t => { t with rating := v })) p
      = [{ r with rating := v }] :=
    search_updateWhere_single
      (f := fun t => { t with rating := v }) (fun _ => rfl) h
  have hs2 := search_updateWhere_single
    (f := fun t => { t with seen_count := t.seen_count.map (· + 1) })
    (fun _ => rfl) hs1
  have hall : ((search (updateWhere db p (fun t => { t with rating := v })) p).all
      (fun t => t.seen_count.isSome)) = true := by
    rw [hs1]
    simp [hn]
  constructor
  · simp only [update_rating]
    rw [if_pos hall]
  · rw [hs2]
    simp [hn]

/-- C7.  Each `update_rating` call increments the matched record's
`seen_count` by exactly one, so after any sequence of `N` recorded
comparisons a record that started at `seen_count = n` sits at `n + N`,
with its path unchanged. -/
theorem seen_count_counts_comparisons (db : DB) (p : String) (r : Record)
    (n : Nat) (ratings : List Int)
    (h : search db p = [r]) (hn : r.seen_count = some n) :
    ∃ db2 r2, apply_ratings p db ratings = Except.ok db2 ∧
      search db2 p = [r2] ∧ r2.seen_count = some (n + ratings.length) ∧
      r2.path = r.path := by
  induction ratings generalizing db r n with
  | nil =>
    refine ⟨db, r, rfl, h, ?_, rfl⟩
    simpa using hn
  | cons v vs ih =>
    obtain ⟨hok, hs⟩ := update_rating_single h hn v
    obtain ⟨db2, r2, hap, hs2, hcount, hpath⟩ := ih _ _ _ hs rfl
    refine ⟨db2, r2, ?_, hs2, ?_, hpath⟩
    · simp [apply_ratings, hok, hap]
    · rw [hcount]
      simp only [List.length_cons, Option.some.injEq]
      omega

theorem seen_count_counts_comparisons_witness :
    ∃ db2 r2, apply_ratings "/d/a.jpg" [freshRecord "/d/a.jpg"] [3, 5]
        = Except.ok db2 ∧
      search db2 "/d/a.jpg" = [r2] ∧
      r2.seen_count = some (0 + [(3 : Int), 5].length) ∧
      r2.path = (freshRecord "/d/a.jpg").path :=
  seen_count_counts_comparisons [freshRecord "/d/a.jpg"] "/d/a.jpg"
    (freshRecord "/d/a.jpg") 0 [3, 5] rfl rfl

/-! ### Behaviour on unknown paths -/

/-- C3 counterexample: `update_rating` on a path with no record does not
fail — it returns successfully and leaves the store untouched. -/
theorem update_rating_unknown_not_error :
    search [freshRecord "/d/a.jpg"] "/d/b.jpg" = [] ∧
    update_rating [freshRecord "/d/a.jpg"] "/d/b.jpg" 7
      = Except.ok [freshRecord "/d/a.jpg"] :=
  ⟨rfl, rfl⟩

/-- C3 as amended.  On a path with no record, `get_rating` raises (the
`None` result of the lookup is subscripted, a `TypeError`), while
`update_rating` succeeds silently without changing the store. -/
theorem unknown_path_behavior (db : DB) (p : String) (v : Int)
    (h : ∀ r ∈ db, r.path ≠ p) :
    get_rating db p = Except.error PyErr.typeError ∧
    update_rating db p v = Except.ok db := by
  have hnil : search db p = [] := search_eq_nil_iff.mpr h
  constructor
  · unfold get_rating
    have hfind : db.find? (fun r => r.path = p) = none := by
      rw [List.find?_eq_none]
      intro x hx
      simp [h x hx]
    rw [hfind]
  · have hupd : updateWhere db p (fun t => { t with rating := v }) = db :=
      updateWhere_no_match h
    simp only [update_rating]
    rw [hupd, hnil]
    simp [updateWhere_no_match h]

theorem unknown_path_behavior_witness :
    get_rating [freshRecord "/d/a.jpg"] "/d/b.jpg"
        = Except.error PyErr.typeError ∧
    update_rating [freshRecord "/d/a.jpg"] "/d/b.jpg" 7
        = Except.ok [freshRecord "/d/a.jpg"] :=
  unknown_path_behavior [freshRecord "/d/a.jpg"] "/d/b.jpg" 7 (by decide)

/-! ### Error swallowing during reconciliation -/

/-- C4 (the code is the bug): validating a duplicated path raises
`EloPicDBError` inside `_validate_image`, but `validate` catches it,
rewrites its message and neither re-raises, collects, nor reports it; the
remaining files are still processed and the load finishes as if nothing
happened. -/
theorem validate_swallows_validation_errors :
    (_validate_image dupDb "/d/a.jpg").2
        = some (PyErr.eloPicDBError "/d/a.jpg") ∧
    validate ["a.jpg", "b.jpg"] "/d" dupDb
        = dupDb ++ [freshRecord "/d/b.jpg"] :=
  ⟨rfl, by decide⟩

/-- C10.  For a path with no record yet, `_validate_image` first inserts the
fresh record and then subscripts the still-empty search result, so it always
raises `IndexError`; the insert persists, and the loop of `validate` catches
the error without re-raising or reporting it. -/
theorem new_image_always_index_error (db : DB) (p : String)
    (h : search db p = []) :
    _validate_image db p = (db ++ [freshRecord p], some PyErr.indexError) ∧
    ∀ dir img, qualifies img = true → pathJoin dir img = p →
      validateStep dir db img = db ++ [freshRecord p] := by
  refine ⟨vi_absent h, fun dir img hq hp => ?_⟩
  unfold validateStep
  rw [if_pos hq, hp, vi_absent h]

theorem new_image_always_index_error_witness :
    _validate_image [] "/d/a.jpg"
        = ([] ++ [freshRecord "/d/a.jpg"], some PyErr.indexError) ∧
    validateStep "/d" [] "a.jpg" = [] ++ [freshRecord "/d/a.jpg"] :=
  ⟨(new_image_always_index_error [] "/d/a.jpg" rfl).1,
   (new_image_always_index_error [] "/d/a.jpg" rfl).2 "/d" "a.jpg"
     (by decide) rfl⟩

/-! ### Ignoring pictures -/

theorem ignore_pictures_cons (db : DB) (q : String) (qs : List String) :
    ignore_pictures db (q :: qs)
      = ignore_pictures
          (updateWhere db q (fun t => { t with ignore := some 1 })) qs := rfl

theorem ignore_pictures_eq_map (db : DB) (ps : List String) :
    ignore_pictures db ps
      = db.map (fun s =>
          if s.path ∈ ps then { s with ignore := some 1 } else s) := by
  induction ps generalizing db with
  | nil => simp [ignore_pictures]
  | cons q qs ih =>
    rw [ignore_pictures_cons, ih]
    unfold updateWhere
    rw [List.map_map]
    apply List.map_congr_left
    intro s _
    by_cases h1 : s.path = q <;> by_cases h2 : s.path ∈ qs <;>
      simp [updAt, h1, h2, List.mem_cons]

theorem to_list_full {db : DB}
    (hfull : ∀ s ∈ db, s.seen_count ≠ none ∧ s.ignore ≠ none) :
    to_list db = Except.ok (db.map
      (fun s => (s.path, s.seen_count.getD 0, s.rating, s.ignore.getD 0))) := by
  induction db with
  | nil => rfl
  | cons s l ih =>
    obtain ⟨h1, h2⟩ := hfull s (List.mem_cons_self s l)
    obtain ⟨a, ha⟩ := Option.ne_none_iff_exists'.mp h1
    obtain ⟨b, hb⟩ := Option.ne_none_iff_exists'.mp h2
    have hrow : entryRow s = Except.ok (s.path, a, s.rating, b) := by
      simp [entryRow, ha, hb]
    have ihl := ih (fun t ht => hfull t (List.mem_cons_of_mem s ht))
    simp [to_list, hrow, ihl, ha, hb]

/-- C9.  `ignore_pictures` flags each listed path that has a record and
silently skips unknown paths; afterwards `get_all` (the active view)
contains no record at any listed path while `to_list` (the all-records
view) still has a row for the flagged path. -/
theorem ignore_exclusion (db : DB) (ps : List String) (p : String)
    (r : Record) (hr : r ∈ db) (hp : r.path = p) (hps : p ∈ ps)
    (hfull : ∀ s ∈ db, s.seen_count ≠ none ∧ s.ignore ≠ none) :
    ignore_pictures db ps
        = db.map (fun s =>
            if s.path ∈ ps then { s with ignore := some 1 } else s) ∧
    (∀ s ∈ get_all (ignore_pictures db ps), s.path ∉ ps) ∧
    (∃ rows, to_list (ignore_pictures db ps) = Except.ok rows ∧
      ∃ row ∈ rows, row.1 = p) := by
  refine ⟨ignore_pictures_eq_map db ps, ?_, ?_⟩
  · intro s hs hmem
    rw [ignore_pictures_eq_map] at hs
    unfold get_all at hs
    obtain ⟨hsmem, hsign⟩ := List.mem_filter.mp hs
    obtain ⟨s0, hs0, hmap⟩ := List.mem_map.mp hsmem
    by_cases h0 : s0.path ∈ ps
    · rw [if_pos h0] at hmap
      subst hmap
      simp at hsign
    · rw [if_neg h0] at hmap
      subst hmap
      exact h0 hmem
  · have hfull2 : ∀ s ∈ ignore_pictures db ps,
        s.seen_count ≠ none ∧ s.ignore ≠ none := by
      intro s hs
      rw [ignore_pictures_eq_map] at hs
      obtain ⟨s0, hs0, hmap⟩ := List.mem_map.mp hs
      obtain ⟨ha, hb⟩ := hfull s0 hs0
      by_cases h0 : s0.path ∈ ps
      · rw [if_pos h0] at hmap
        subst hmap
        exact ⟨ha, by simp⟩
      · rw [if_neg h0] at hmap
        subst hmap
        exact ⟨ha, hb⟩
    refine ⟨_, to_list_full hfull2, ?_⟩
    have hmem2 : ({ r with ignore := some 1 } : Record)
        ∈ ignore_pictures db ps := by
      rw [ignore_pictures_eq_map]
      refine List.mem_map.mpr ⟨r, hr, ?_⟩
      rw [if_pos (by rw [hp]; exact hps)]
    exact ⟨_, List.mem_map_of_mem _ hmem2, by simp [hp]⟩

theorem ignore_exclusion_witness :
    ignore_pictures [freshRecord "/d/a.jpg"] ["/d/a.jpg"]
        = [freshRecord "/d/a.jpg"].map (fun s =>
            if s.path ∈ ["/d/a.jpg"] then { s with ignore := some 1 } else s) ∧
    (∀ s ∈ get_all (ignore_pictures [freshRecord "/d/a.jpg"] ["/d/a.jpg"]),
        s.path ∉ ["/d/a.jpg"]) ∧
    (∃ rows, to_list (ignore_pictures [freshRecord "/d/a.jpg"] ["/d/a.jpg"])
        = Except.ok rows ∧ ∃ row ∈ rows, row.1 = "/d/a.jpg") :=
  ignore_exclusion [freshRecord "/d/a.jpg"] ["/d/a.jpg"] "/d/a.jpg"
    (freshRecord "/d/a.jpg") (by decide) rfl (by decide) (by decide)
